import Mathlib

/-!
Shallow embedding of the tabular data engine of `src/components/SpreadsheetTable.tsx`
(an in-browser spreadsheet component).  Rows are JS objects with an `id` number and
string-valued fields; the component keeps them in a `data` array and derives a
processed view (filter, then stable sort), a search-match annotation, and applies
structural mutations (add/duplicate/delete/clear rows, clear cells and columns).

Modelling conventions:
* JS row ids are numbers produced by `Math.max(...ids) + 1`.  Starting from integer
  ids the only reachable values are integers and `-Infinity` (the value of
  `Math.max()` on an empty spread, absorbing under `+ 1`), so ids are modelled by
  `JsNum` = integers plus a `-Infinity` point.  `NaN` is unreachable on this path.
* JS strings are modelled by Lean `String`/`List Char`; `toLowerCase` by
  `Char.toLower` (the data is ASCII), `String.prototype.includes` by an explicit
  substring scan, `trim` by discarding leading/trailing whitespace characters.
* `Array.prototype.sort` (stable per ECMAScript) is modelled by a stable insertion
  sort over the source's comparator.
* `parseFloat` is modelled exactly by the decimal-literal grammar
  (sign, digits, fraction, exponent) as an integer mantissa and power-of-ten
  exponent (`DecQ`, with rational value `DecQ.toRat`), `none` standing for
  `NaN`; the `Infinity` literal is not modelled (it does not occur in this
  data).
* `new Date(s)` on the re-joined `YYYY-MM-DD` string is modelled by a strict
  digit parse to a monotone integer key, `none` standing for an invalid date
  (whose JS comparisons `<` and `>` are both false, hence comparator result 0).
-/

namespace Spreadsheet

/-- JS numbers reachable as row ids: integers together with `-Infinity`
(the value of `Math.max()` applied to an empty spread argument list). -/
inductive JsNum where
  | negInf : JsNum
  | int (n : ℤ) : JsNum
deriving DecidableEq, Repr

/-- `Math.max` on two arguments (over the reachable values). -/
def JsNum.max2 : JsNum → JsNum → JsNum
  | .negInf, b => b
  | a, .negInf => a
  | .int a, .int b => .int (max a b)

/-- Addition of a natural constant; `-Infinity + n = -Infinity` in JS. -/
def JsNum.addNat : JsNum → ℕ → JsNum
  | .negInf, _ => .negInf
  | .int a, k => .int (a + k)

/-- JS truthiness of a number: `0` is falsy, every other reachable value
(including `-Infinity`) is truthy. -/
def JsNum.truthy : JsNum → Bool
  | .int 0 => false
  | _ => true

/-- `a ≤ b` on reachable JS numbers. -/
def JsNum.leB : JsNum → JsNum → Bool
  | .negInf, _ => true
  | .int _, .negInf => false
  | .int a, .int b => decide (a ≤ b)

/-- A spreadsheet row: the JS object `{ id: number, ...string fields }` of the
`SpreadsheetRow` interface.  The string-keyed fields (jobRequest, submitted,
status, submitter, url, assigned, priority, dueDate, estValue, and custom
columns) are kept as an association list mirroring the object's own keys. -/
structure Row where
  id : JsNum
  fields : List (String × String)
deriving DecidableEq, Repr

/-- First-match association lookup (JS property read on the fields). -/
def lookupA (k : String) : List (String × String) → Option String
  | [] => none
  | (k', v) :: rest => if k' = k then some v else lookupA k rest

/-- Overwrite the binding of `k` (or append it), as the JS object spread
`{ ...row, [k]: v }` does on the row's own string keys. -/
def updateAssoc (k v : String) : List (String × String) → List (String × String)
  | [] => [(k, v)]
  | (k', v') :: rest => if k' = k then (k, v) :: rest else (k', v') :: updateAssoc k v rest

/-- `String(row[k] || '')`: reading an absent key gives `undefined`, which the
source coerces to the empty string. -/
def getF (r : Row) (k : String) : String :=
  (lookupA k r.fields).getD ""

/-- `{ ...row, [k]: v }`. -/
def setF (r : Row) (k v : String) : Row :=
  { r with fields := updateAssoc k v r.fields }

/-- Ids of the rows of a store, in store order. -/
def idsOf (data : List Row) : List JsNum :=
  data.map Row.id

/-- `Math.max(...data.map(row => row.id))`: `-Infinity` on an empty store. -/
def maxId (data : List Row) : JsNum :=
  data.foldr (fun r m => JsNum.max2 r.id m) JsNum.negInf

/-- `Math.max(...data.map(row => row.id)) + 1`, the id given to every newly
inserted or duplicated row. -/
def nextId (data : List Row) : JsNum :=
  (maxId data).addNat 1

/-- `col.toLowerCase().replace(/\s+/g, '')`: the field key derived from a
custom column label. -/
def fieldKeyOf (label : String) : String :=
  ⟨(label.toList.map Char.toLower).filter (fun c => ¬ c.isWhitespace)⟩

/-- The nine built-in field keys, in registry order (the source's `fields`). -/
def baseFields : List String :=
  ["jobRequest", "submitted", "status", "submitter", "url", "assigned",
   "priority", "dueDate", "estValue"]

/-- `allFields`: built-in keys followed by the keys derived from the custom
column labels. -/
def allFields (customColumns : List String) : List String :=
  baseFields ++ customColumns.map fieldKeyOf

/-- `allFields.filter(field => !hiddenFields.includes(field))`. -/
def visibleFields (hiddenFields : List String) (customColumns : List String) : List String :=
  (allFields customColumns).filter (fun f => ¬ hiddenFields.contains f)

/-- The fields of a freshly inserted row (`addRow` / `addRowAt`): defaults for
the built-ins (`today` stands for `new Date().toLocaleDateString('en-GB')`)
and the empty string for every custom column. -/
def defaultRowFields (today : String) (customColumns : List String) : List (String × String) :=
  [("jobRequest", ""), ("submitted", today), ("status", "need to start"),
   ("submitter", ""), ("url", ""), ("assigned", ""), ("priority", "Medium"),
   ("dueDate", ""), ("estValue", "")] ++ customColumns.map (fun c => (fieldKeyOf c, ""))

/-- `addRow`: append a default row carrying id `max(ids) + 1`. -/
def addRow (today : String) (customColumns : List String) (data : List Row) : List Row :=
  data ++ [{ id := nextId data, fields := defaultRowFields today customColumns }]

/-- `newData.splice(position, 0, newRow)` for `position ≤ length`: insert
before the element currently at `position`. -/
def spliceIn (p : ℕ) (x : Row) (l : List Row) : List Row :=
  l.take p ++ x :: l.drop p

/-- `addRowAt(position?)`: splice the default row in at `position` when given
and `< data.length`, otherwise append. -/
def addRowAt (today : String) (customColumns : List String) (position : Option ℕ)
    (data : List Row) : List Row :=
  let newRow : Row := { id := nextId data, fields := defaultRowFields today customColumns }
  match position with
  | some p => if p < data.length then spliceIn p newRow data else data ++ [newRow]
  | none => data ++ [newRow]

/-- `deleteRow(rowId)`: `data.filter(row => row.id !== rowId)`. -/
def deleteRow (rowId : JsNum) (data : List Row) : List Row :=
  data.filter (fun r => r.id ≠ rowId)

/-- `duplicateRow(rowId)`: copy the first row whose id matches, give the copy
id `max(ids) + 1`, append it; silently do nothing when no row matches. -/
def duplicateRow (rowId : JsNum) (data : List Row) : List Row :=
  match data.find? (fun r => r.id = rowId) with
  | some r => data ++ [{ r with id := nextId data }]
  | none => data

/-- Batch delete (`handleBatchAction('deleteRows')` after confirmation):
remove every row whose id is among the selected row ids. -/
def batchDeleteRows (rowIds : List JsNum) (data : List Row) : List Row :=
  data.filter (fun r => ¬ rowIds.contains r.id)

/-- The duplicated rows of a batch duplicate: the i-th copied row (0-based)
gets id `max(ids at call time) + i + 1`.  In the source the index is
`rowsToDuplicate.indexOf(row)`, which over the distinct array references is
exactly the iteration index modelled by the counter here. -/
def batchDupNewRows (m : JsNum) : ℕ → List Row → List Row
  | _, [] => []
  | i, r :: rest => { r with id := m.addNat (i + 1) } :: batchDupNewRows m (i + 1) rest

/-- Batch duplicate (`handleBatchAction('duplicateRows')`): copy every selected
row, ids assigned sequentially above the current maximum, copies appended. -/
def batchDuplicateRows (rowIds : List JsNum) (data : List Row) : List Row :=
  data ++ batchDupNewRows (maxId data) 0 (data.filter (fun r => rowIds.contains r.id))

/-- `clearRow(rowId)`: set every field except `id` to the empty string. -/
def clearRow (rowId : JsNum) (data : List Row) : List Row :=
  data.map (fun r =>
    if r.id = rowId then { r with fields := r.fields.map (fun kv => (kv.1, "")) } else r)

/-- `visibleFields[colIndex]` as the source uses it in a computed property key:
an out-of-range index reads `undefined`, which a computed key stringifies. -/
def fieldAt (vf : List String) (colIndex : ℕ) : String :=
  vf.getD colIndex "undefined"

/-- `clearCell(rowId, colIndex)`: resolve the column against the visible
fields and blank that field on the addressed row. -/
def clearCell (vf : List String) (rowId : JsNum) (colIndex : ℕ) (data : List Row) : List Row :=
  data.map (fun r => if r.id = rowId then setF r (fieldAt vf colIndex) "" else r)

/-- `clearColumn(colIndex)`: blank the visible-resolved field on every row. -/
def clearColumn (vf : List String) (colIndex : ℕ) (data : List Row) : List Row :=
  data.map (fun r => setF r (fieldAt vf colIndex) "")

/-- `setCellValue(rowId, colIndex, value)`: write `value` to the
visible-resolved field of the addressed row. -/
def setCellValue (vf : List String) (rowId : JsNum) (colIndex : ℕ) (value : String)
    (data : List Row) : List Row :=
  data.map (fun r => if r.id = rowId then setF r (fieldAt vf colIndex) value else r)

/-- The field value of the first row carrying `rowId`, if any (how the source
reads a row back: `data.find(row => row.id === rowId)` then the property). -/
def rowValueIn (data : List Row) (rowId : JsNum) (k : String) : Option String :=
  (data.find? (fun r => r.id = rowId)).map (fun r => getF r k)

/-- JS `toLowerCase` on the (ASCII) data, as a character list. -/
def lower (s : String) : List Char :=
  s.toList.map Char.toLower

/-- Does `h` start with `n`? (auxiliary for `String.prototype.includes`). -/
def startsWithL (n : List Char) : List Char → Bool
  | [] => n.isEmpty
  | b :: bs =>
    match n with
    | [] => true
    | a :: as => a = b && startsWithL as bs

/-- `h.includes(n)` for JS strings, over character lists. -/
def jsIncludes (n : List Char) : List Char → Bool
  | [] => startsWithL n []
  | b :: bs => startsWithL n (b :: bs) || jsIncludes n bs

/-- JS whitespace for `trim` (the characters occurring in this data). -/
def isJsSpace (c : Char) : Bool :=
  c = ' ' || c = '\t' || c = '\n' || c = '\r'

/-- `s.trim() === ''`: the string is empty or whitespace-only. -/
def jsTrimEmpty (s : String) : Bool :=
  s.toList.all isJsSpace

/-! ### The view spec (caller-supplied props) and the filter stage -/

/-- `'asc' | 'desc'`. -/
inductive SortOrder where
  | asc : SortOrder
  | desc : SortOrder
deriving DecidableEq, Repr

/-- The props of the component that configure the derived view. -/
structure ViewSpec where
  hiddenFields : List String
  sortField : Option String
  sortOrder : Option SortOrder
  filterField : Option String
  filterValue : String
  searchTerm : String
deriving DecidableEq, Repr

/-- The filter predicate of `processedData`: case-insensitive equality on the
date fields `submitted` and `dueDate`, case-insensitive containment on every
other field. -/
def matchesFilter (filterField filterValue : String) (row : Row) : Bool :=
  let cellValue := lower (getF row filterField)
  if filterField = "submitted" ∨ filterField = "dueDate" then
    cellValue = lower filterValue
  else
    jsIncludes (lower filterValue) cellValue

/-- The filter stage of `processedData`: applied only when `filterField` is set
and `filterValue` is non-empty (a JS truthiness test on the string). -/
def filterStep (spec : ViewSpec) (data : List Row) : List Row :=
  match spec.filterField with
  | some f => if spec.filterValue ≠ "" then data.filter (matchesFilter f spec.filterValue) else data
  | none => data

/-! ### Sort keys -/

/-- Digit-list value (most significant first). -/
def digitsVal (l : List Char) : ℕ :=
  l.foldl (fun a c => a * 10 + (c.toNat - 48)) 0

/-- The exponent part accepted by `parseFloat` after the mantissa: `e`/`E`,
optional sign, digits; an incomplete exponent is ignored (exponent 0). -/
def parseExp (cs : List Char) : ℤ :=
  match cs with
  | c :: rest =>
    if c = 'e' ∨ c = 'E' then
      match rest with
      | '-' :: r => if (r.takeWhile Char.isDigit).isEmpty then 0
                    else -(digitsVal (r.takeWhile Char.isDigit) : ℤ)
      | '+' :: r => if (r.takeWhile Char.isDigit).isEmpty then 0
                    else (digitsVal (r.takeWhile Char.isDigit) : ℤ)
      | r => if (r.takeWhile Char.isDigit).isEmpty then 0
             else (digitsVal (r.takeWhile Char.isDigit) : ℤ)
    else 0
  | [] => 0

/-- An exact decimal number `mant * 10 ^ exp`: the value space of a finite
`parseFloat` result (kept unnormalised so every operation is plain integer
arithmetic). -/
structure DecQ where
  mant : ℤ
  exp : ℤ
deriving DecidableEq, Repr

/-- `10 ^ n` over the integers. -/
def pow10 : ℕ → ℤ
  | 0 => 1
  | n + 1 => 10 * pow10 n

/-- The rational value of a `DecQ`. -/
def DecQ.toRat (a : DecQ) : ℚ :=
  (a.mant : ℚ) * (10 : ℚ) ^ a.exp

/-- Bring two decimals to a common power of ten so that they compare as the
pair of scaled integer mantissas. -/
def DecQ.scaled (a b : DecQ) : ℤ × ℤ :=
  let d := a.exp - b.exp
  if 0 ≤ d then (a.mant * pow10 d.toNat, b.mant)
  else (a.mant, b.mant * pow10 (-d).toNat)

/-- `parseFloat` over exact decimals: leading whitespace, optional sign,
decimal digits with optional fraction and exponent; `none` models `NaN`
(no digits parsed).  The `Infinity` literal is not modelled. -/
def jsParseFloat (s : String) : Option DecQ :=
  let cs := s.toList.dropWhile isJsSpace
  let sign : ℤ := if cs.head? = some '-' then -1 else 1
  let cs := if cs.head? = some '-' ∨ cs.head? = some '+' then cs.tail else cs
  let ip := cs.takeWhile Char.isDigit
  let cs₁ := cs.dropWhile Char.isDigit
  let fp := if cs₁.head? = some '.' then cs₁.tail.takeWhile Char.isDigit else []
  let rest := if cs₁.head? = some '.' then cs₁.tail.dropWhile Char.isDigit else cs₁
  if ip.isEmpty ∧ fp.isEmpty then none
  else some { mant := sign * digitsVal (ip ++ fp), exp := parseExp rest - fp.length }

/-- `String(v).replace(/,/g, '')`. -/
def stripCommas (s : String) : String :=
  ⟨s.toList.filter (fun c => c ≠ ',')⟩

/-- The numeric sort key of an `estValue` cell:
`parseFloat(String(v).replace(/,/g, '')) || 0` (`NaN` degrades to 0). -/
def estKey (s : String) : DecQ :=
  match jsParseFloat (stripCommas s) with
  | some v => v
  | none => { mant := 0, exp := 0 }

/-- The priority sort key: `{High: 3, Medium: 2, Low: 1}[v] || 0`. -/
def prioKey (s : String) : ℤ :=
  if s = "High" then 3 else if s = "Medium" then 2 else if s = "Low" then 1 else 0

/-- The date sort key: the source reverses the `-`-separated components and
feeds them to `new Date`, i.e. `DD-MM-YYYY` becomes `YYYY-MM-DD`.  A strict
all-digit date in range maps to a monotone integer key; anything else is an
invalid date (`none`, JS `NaN` time value). -/
def dateKey (s : String) : Option ℤ :=
  match (s.splitOn "-").reverse with
  | [y, m, d] =>
    if y.toList ≠ [] ∧ y.toList.all Char.isDigit ∧ m.toList ≠ [] ∧ m.toList.all Char.isDigit
        ∧ d.toList ≠ [] ∧ d.toList.all Char.isDigit
        ∧ 1 ≤ digitsVal m.toList ∧ digitsVal m.toList ≤ 12
        ∧ 1 ≤ digitsVal d.toList ∧ digitsVal d.toList ≤ 31 then
      some ((digitsVal y.toList : ℤ) * 10000 + (digitsVal m.toList : ℤ) * 100
            + (digitsVal d.toList : ℤ))
    else none
  | _ => none

/-- `if (a < b) return -1; if (a > b) return 1; return 0` over integers. -/
def intCmp (a b : ℤ) : Int :=
  if a < b then -1 else if b < a then 1 else 0

/-- The same three-way comparison over rationals. -/
def ratCmp (a b : ℚ) : Int :=
  if a < b then -1 else if b < a then 1 else 0

/-- The three-way comparison of two decimals, by their values: cross-scale to
a common power of ten and compare the integer mantissas. -/
def decqCmp (a b : DecQ) : Int :=
  intCmp (DecQ.scaled a b).1 (DecQ.scaled a b).2

/-- JS string comparison (`<` / `>` on strings): lexicographic by code unit. -/
def lexCmp : List Char → List Char → Int
  | [], [] => 0
  | [], _ :: _ => -1
  | _ :: _, [] => 1
  | a :: as, b :: bs => if a < b then -1 else if b < a then 1 else lexCmp as bs

/-- The comparator body of `processedData` before the order is applied:
dates on `submitted`/`dueDate` (an invalid date compares neither below nor
above anything, so 0), numbers on `estValue`, the priority ranking on
`priority`, lower-cased lexicographic comparison otherwise. -/
def cmpRaw (sortField : String) (a b : Row) : Int :=
  let av := getF a sortField
  let bv := getF b sortField
  if sortField = "submitted" ∨ sortField = "dueDate" then
    match dateKey av, dateKey bv with
    | some x, some y => intCmp x y
    | _, _ => 0
  else if sortField = "estValue" then
    decqCmp (estKey av) (estKey bv)
  else if sortField = "priority" then
    intCmp (prioKey av) (prioKey bv)
  else
    lexCmp (lower av) (lower bv)

/-- The full comparator: `asc` uses the raw comparison, `desc` flips the
returned sign (`a < b ? 1 : a > b ? -1 : 0`). -/
def rowCmp (sortField : String) (ord : SortOrder) (a b : Row) : Int :=
  match ord with
  | .asc => cmpRaw sortField a b
  | .desc => -(cmpRaw sortField a b)

/-! ### Stable sort (model of ECMAScript `Array.prototype.sort`) -/

/-- Insert `x` into `l`, passing over exactly the elements that compare
strictly below it; ties and larger elements stop the scan, so an element
inserted from the left ends up before every tie. -/
def insertSorted (cmp : α → α → Int) (x : α) : List α → List α
  | [] => [x]
  | y :: ys => if 0 < cmp x y then y :: insertSorted cmp x ys else x :: y :: ys

/-- Stable insertion sort: for a consistent comparator this is the unique
stable sort, which is what ECMAScript specifies for `Array.prototype.sort`. -/
def sortJs (cmp : α → α → Int) : List α → List α
  | [] => []
  | x :: xs => insertSorted cmp x (sortJs cmp xs)

/-- `processedData`: filter, then (when both a sort field and a sort order are
given) the stable sort under the selected comparator. -/
def processedData (spec : ViewSpec) (data : List Row) : List Row :=
  let filtered := filterStep spec data
  match spec.sortField, spec.sortOrder with
  | some f, some ord => sortJs (rowCmp f ord) filtered
  | _, _ => filtered

/-! ### Search annotation -/

/-- `cellMatchesSearch(row, fieldName)`: false for an empty or whitespace-only
term, otherwise case-insensitive containment of the (untrimmed) term in the
stringified field value. -/
def cellMatchesSearch (searchTerm : String) (row : Row) (fieldName : String) : Bool :=
  if jsTrimEmpty searchTerm then false
  else jsIncludes (lower searchTerm) (lower (getF row fieldName))

/-- `searchResultsCount`: 0 for an empty or whitespace-only term, otherwise the
nested count of matching cells over the processed view and visible fields. -/
def searchResultsCount (pd : List Row) (vf : List String) (searchTerm : String) : ℕ :=
  if jsTrimEmpty searchTerm then 0
  else pd.foldl (fun c r => vf.foldl (fun c f =>
    if cellMatchesSearch searchTerm r f then c + 1 else c) c) 0

/-! ### Selection / edit state and its handlers -/

/-- The component state that the claims touch: the row store, the single
selected cell, the multi-select set (the JS `Set` of `rowId-colIndex` strings,
as id/index pairs), and the in-flight edit session. -/
structure EngineState where
  data : List Row
  selectedCell : Option (JsNum × ℕ)
  selectedCells : List (JsNum × ℕ)
  editingCell : Option (JsNum × ℕ)
  editValue : String
deriving DecidableEq, Repr

/-- `getCellValue(rowId, colIndex)`: the value of the addressed cell read from
the processed view (empty when the row is not in it). -/
def getCellValue (spec : ViewSpec) (customColumns : List String) (data : List Row)
    (rowId : JsNum) (colIndex : ℕ) : String :=
  match (processedData spec data).find? (fun r => r.id = rowId) with
  | some r => getF r (fieldAt (visibleFields spec.hiddenFields customColumns) colIndex)
  | none => ""

/-- `handleCellDoubleClick`: open an edit session on the cell, draft
initialised to the cell's current value, and select the cell. -/
def handleCellDoubleClick (spec : ViewSpec) (customColumns : List String)
    (st : EngineState) (rowId : JsNum) (colIndex : ℕ) : EngineState :=
  { st with
    editingCell := some (rowId, colIndex)
    editValue := getCellValue spec customColumns st.data rowId colIndex
    selectedCell := some (rowId, colIndex) }

/-- `saveEdit`: commit the draft through `setCellValue`, then drop the
session. -/
def saveEdit (spec : ViewSpec) (customColumns : List String) (st : EngineState) : EngineState :=
  match st.editingCell with
  | some (r, c) =>
    { st with
      data := setCellValue (visibleFields spec.hiddenFields customColumns) r c st.editValue st.data
      editingCell := none
      editValue := "" }
  | none => st

/-- The document-level `Delete` key handler: suppressed entirely while a cell
is being edited; with a selection, `Shift+Delete` deletes the selected row and
plain `Delete` clears the selected cell.  Neither branch touches
`selectedCell`. -/
def handleKeyDownDelete (spec : ViewSpec) (customColumns : List String) (shift : Bool)
    (st : EngineState) : EngineState :=
  if st.editingCell.isSome then st
  else
    match st.selectedCell with
    | some (r, c) =>
      if shift then { st with data := deleteRow r st.data }
      else { st with data := clearCell (visibleFields spec.hiddenFields customColumns) r c st.data }
    | none => st

/-- The toolbar Delete-Row button: `selectedCell && deleteRow(selectedCell.row)`. -/
def toolbarDeleteRow (st : EngineState) : EngineState :=
  match st.selectedCell with
  | some (r, _) => { st with data := deleteRow r st.data }
  | none => st

/-- The context-menu `deleteRow` action: resolve the captured row index in the
processed view, and delete only when the found id is truthy (`if (rowId)`). -/
def contextDeleteRow (spec : ViewSpec) (st : EngineState) (rowIndex : ℕ) : EngineState :=
  match (processedData spec st.data).get? rowIndex with
  | some row => if row.id.truthy then { st with data := deleteRow row.id st.data } else st
  | none => st

/-- `handleBatchAction('deleteRows')` (confirmation accepted): delete every row
whose id occurs in the multi-select set and clear that set; `selectedCell` is
not touched. -/
def batchDeleteAction (st : EngineState) : EngineState :=
  { st with
    data := st.data.filter (fun r => ¬ (st.selectedCells.map Prod.fst).contains r.id)
    selectedCells := [] }

/-! ### Row operation sequences and the id invariant -/

/-- All row ids are finite (no id has degenerated to `-Infinity`). -/
def idsFinite (data : List Row) : Prop :=
  ∀ r ∈ data, r.id ≠ JsNum.negInf

/-- The id-uniqueness invariant of the row store. -/
def NiceStore (data : List Row) : Prop :=
  idsFinite data ∧ (idsOf data).Nodup

/-- One row operation of the mutation engine. -/
inductive RowOp where
  | add (today : String) (customColumns : List String) : RowOp
  | addAt (today : String) (customColumns : List String) (position : Option ℕ) : RowOp
  | dup (rowId : JsNum) : RowOp
  | batchDup (rowIds : List JsNum) : RowOp
  | del (rowId : JsNum) : RowOp
  | batchDel (rowIds : List JsNum) : RowOp
deriving DecidableEq, Repr

/-- Operations that allocate an id unconditionally (the `addRow`/`addRowAt`
paths; duplication only allocates when its source row exists). -/
def RowOp.isInsertion : RowOp → Bool
  | .add _ _ => true
  | .addAt _ _ _ => true
  | _ => false

/-- Apply one row operation to the store. -/
def applyOp : RowOp → List Row → List Row
  | .add t cc, d => addRow t cc d
  | .addAt t cc p, d => addRowAt t cc p d
  | .dup rid, d => duplicateRow rid d
  | .batchDup rids, d => batchDuplicateRows rids d
  | .del rid, d => deleteRow rid d
  | .batchDel rids, d => batchDeleteRows rids d

/-- Apply a sequence of row operations, left to right. -/
def applyOps (ops : List RowOp) (data : List Row) : List Row :=
  ops.foldl (fun d op => applyOp op d) data

/-- Every insertion in the sequence is applied to a non-empty store (the
regime in which `Math.max(...ids)` is a finite number). -/
def insertionsOk : List RowOp → List Row → Bool
  | [], _ => true
  | op :: rest, d => (!op.isInsertion || !d.isEmpty) && insertionsOk rest (applyOp op d)

/-! ### Spec-side model of `duplicateRow`'s error contract -/

/-- The spec's error kind for a missing row. -/
inductive RowError where
  | rowNotFound : RowError
deriving DecidableEq, Repr

/-- The source's `duplicateRow` seen through an error channel: the TSX function
body contains no `throw` and no error signalling of any kind, so every call
returns normally with the (possibly unchanged) store. -/
def duplicateRowExc (rowId : JsNum) (data : List Row) : Except RowError (List Row) :=
  Except.ok (duplicateRow rowId data)

/-- Modelled from the spec: `duplicateRow(rowId) -> newRowId` "copies all field
values, assigns a new id per the allocation rule; fails with `RowNotFound` if
`rowId` absent" (§4.2).  This error-signalling behaviour has no counterpart in
the source, which silently no-ops on an absent id. -/
def duplicateRowSpecModel (rowId : JsNum) (data : List Row) : Except RowError (List Row) :=
  match data.find? (fun r => r.id = rowId) with
  | some r => Except.ok (data ++ [{ r with id := nextId data }])
  | none => Except.error RowError.rowNotFound

/-! ### Concrete stores, rows and specs used by witnesses and counterexamples -/

/-- A small concrete row store with distinct finite ids. -/
def exRow1 : Row :=
  { id := .int 1
    fields := [("jobRequest", "Launch social media campaign"), ("submitted", "15-11-2024"),
               ("status", "in-progress"), ("submitter", "Aisha Patel"), ("url", "www.a.com"),
               ("assigned", "Sophie"), ("priority", "Medium"), ("dueDate", "20-11-2024"),
               ("estValue", "6,200,000")] }

def exRow2 : Row :=
  { id := .int 2
    fields := [("jobRequest", "Update press kit"), ("submitted", "28-10-2024"),
               ("status", "complete"), ("submitter", "Irfan Khan"), ("url", "www.b.com"),
               ("assigned", "Tejas"), ("priority", "High"), ("dueDate", "30-10-2024"),
               ("estValue", "3,500,000")] }

def exRow3 : Row :=
  { id := .int 3
    fields := [("jobRequest", "Finalize user testing"), ("submitted", "05-12-2024"),
               ("status", "in-progress"), ("submitter", "Mark Johnson"), ("url", "www.c.com"),
               ("assigned", "Rachel"), ("priority", "Medium"), ("dueDate", "10-12-2024"),
               ("estValue", "4,750,000")] }

def exStore : List Row := [exRow1, exRow2, exRow3]

/-- The view spec with every feature off. -/
def plainSpec : ViewSpec :=
  { hiddenFields := [], sortField := none, sortOrder := none,
    filterField := none, filterValue := "", searchTerm := "" }

/-- Sort by `estValue`, ascending; nothing else. -/
def estAscSpec : ViewSpec :=
  { hiddenFields := [], sortField := some "estValue", sortOrder := some .asc,
    filterField := none, filterValue := "", searchTerm := "" }

/-- Filter `status = "complete"`; nothing else. -/
def statusFilterSpec : ViewSpec :=
  { hiddenFields := [], sortField := none, sortOrder := none,
    filterField := some "status", filterValue := "complete", searchTerm := "" }

/-- Sort by `status` ascending; nothing else (used for tie stability). -/
def statusSortSpec : ViewSpec :=
  { hiddenFields := [], sortField := some "status", sortOrder := some .asc,
    filterField := none, filterValue := "", searchTerm := "" }

/-- The two rows of the spec's Example 1 (`estValue` "1,200" vs "300"). -/
def estRow1 : Row := { id := .int 1, fields := [("estValue", "1,200")] }

def estRow2 : Row := { id := .int 2, fields := [("estValue", "300")] }

/-- A state with row 1 selected and no live edit, used to exercise the
Delete-key path. -/
def exSelState : EngineState :=
  { data := exStore, selectedCell := some (.int 1, 0), selectedCells := [],
    editingCell := none, editValue := "" }

/-! ### Association-list and accessor lemmas -/

theorem lookupA_updateAssoc_self (l : List (String × String)) (k v : String) :
    lookupA k (updateAssoc k v l) = some v := by
  induction l with
  | nil => simp [lookupA, updateAssoc]
  | cons kv rest ih =>
    by_cases h : kv.1 = k
    · simp [updateAssoc, lookupA, h]
    · simp [updateAssoc, lookupA, h, ih]

theorem lookupA_updateAssoc_ne (l : List (String × String)) (k v k' : String) (h : k' ≠ k) :
    lookupA k' (updateAssoc k v l) = lookupA k' l := by
  have hne : ¬ k = k' := fun he => h he.symm
  induction l with
  | nil => simp [lookupA, updateAssoc, hne]
  | cons kv rest ih =>
    obtain ⟨a, b⟩ := kv
    by_cases hk : a = k
    · subst hk
      simp [updateAssoc, lookupA, hne]
    · simp only [updateAssoc, if_neg hk, lookupA, ih]

theorem getF_setF_self (r : Row) (k v : String) : getF (setF r k v) k = v := by
  simp [getF, setF, lookupA_updateAssoc_self]

theorem getF_setF_ne (r : Row) (k v k' : String) (h : k' ≠ k) :
    getF (setF r k v) k' = getF r k' := by
  simp [getF, setF, lookupA_updateAssoc_ne _ _ _ _ h]

theorem setF_id (r : Row) (k v : String) : (setF r k v).id = r.id := rfl

/-! ### Stable-sort lemmas -/

theorem insertSorted_perm (cmp : α → α → Int) (x : α) (l : List α) :
    List.Perm (insertSorted cmp x l) (x :: l) := by
  induction l with
  | nil => simp [insertSorted]
  | cons y ys ih =>
    by_cases h : 0 < cmp x y
    · simpa [insertSorted, h] using (ih.cons y).trans (List.Perm.swap x y ys)
    · simp [insertSorted, h]

theorem sortJs_perm (cmp : α → α → Int) (l : List α) :
    List.Perm (sortJs cmp l) l := by
  induction l with
  | nil => simp [sortJs]
  | cons x xs ih =>
    exact (insertSorted_perm cmp x (sortJs cmp xs)).trans (ih.cons x)

theorem mem_sortJs (cmp : α → α → Int) (l : List α) (a : α) :
    a ∈ sortJs cmp l ↔ a ∈ l :=
  (sortJs_perm cmp l).mem_iff

theorem sublist_insertSorted (cmp : α → α → Int) (x : α) (l : List α) :
    List.Sublist l (insertSorted cmp x l) := by
  induction l with
  | nil => simp [insertSorted]
  | cons y ys ih =>
    by_cases h : 0 < cmp x y
    · simpa [insertSorted, h] using ih.cons₂ y
    · simp [insertSorted, h]

theorem insertSorted_pair (cmp : α → α → Int) (x q : α) (l : List α)
    (hq : q ∈ l) (hle : cmp x q ≤ 0) :
    List.Sublist [x, q] (insertSorted cmp x l) := by
  induction l with
  | nil => cases hq
  | cons y ys ih =>
    by_cases h : 0 < cmp x y
    · rcases List.mem_cons.mp hq with rfl | hmem
      · exact absurd hle (by omega)
      · simpa [insertSorted, h] using (ih hmem).cons y
    · have hq' : List.Sublist [q] (y :: ys) := List.singleton_sublist.mpr hq
      simpa [insertSorted, h] using hq'.cons₂ x

theorem sortJs_stable_pair (cmp : α → α → Int) (p q : α) (l : List α)
    (hsub : List.Sublist [p, q] l) (heq : cmp p q = 0) :
    List.Sublist [p, q] (sortJs cmp l) := by
  induction l with
  | nil => cases hsub
  | cons x xs ih =>
    cases hsub with
    | cons _ h => exact (ih h).trans (sublist_insertSorted cmp x (sortJs cmp xs))
    | cons₂ _ h =>
      have hq : q ∈ sortJs cmp xs :=
        (mem_sortJs cmp xs q).mpr (List.singleton_sublist.mp h)
      exact insertSorted_pair cmp p q (sortJs cmp xs) hq (le_of_eq heq)

/-! ### `find?` lemmas -/

theorem find?_id_of_mem_nodup (l : List Row) (r : Row) (h : r ∈ l)
    (hnd : (l.map Row.id).Nodup) :
    l.find? (fun x => x.id = r.id) = some r := by
  induction l with
  | nil => cases h
  | cons x xs ih =>
    simp only [List.map_cons, List.nodup_cons] at hnd
    rcases List.mem_cons.mp h with rfl | hmem
    · simp [List.find?_cons_of_pos]
    · have hx : ¬ x.id = r.id := by
        intro he
        exact hnd.1 (he ▸ List.mem_map_of_mem Row.id hmem)
      rw [List.find?_cons_of_neg _ (by simpa using hx)]
      exact ih hmem hnd.2

theorem find?_map_id_preserving (g : Row → Row) (hg : ∀ r, (g r).id = r.id)
    (l : List Row) (rid : JsNum) :
    (l.map g).find? (fun r => r.id = rid) = (l.find? (fun r => r.id = rid)).map g := by
  induction l with
  | nil => simp
  | cons x xs ih =>
    by_cases hx : x.id = rid
    · rw [List.map_cons, List.find?_cons_of_pos _ (by simp [hg, hx]),
        List.find?_cons_of_pos _ (by simp [hx])]
      rfl
    · rw [List.map_cons, List.find?_cons_of_neg _ (by simp [hg, hx]),
        List.find?_cons_of_neg _ (by simp [hx])]
      exact ih

/-! ### Id allocation lemmas -/

theorem leB_max2_left (a b : JsNum) : a.leB (JsNum.max2 a b) = true := by
  cases a <;> cases b <;> simp [JsNum.leB, JsNum.max2, le_max_left]

theorem leB_max2_right (a b : JsNum) : b.leB (JsNum.max2 a b) = true := by
  cases a <;> cases b <;> simp [JsNum.leB, JsNum.max2, le_max_right]

theorem leB_trans {a b c : JsNum} (h₁ : a.leB b = true) (h₂ : b.leB c = true) :
    a.leB c = true := by
  cases a <;> cases b <;> cases c <;> simp_all [JsNum.leB]
  all_goals omega

theorem leB_maxId_of_mem {data : List Row} {r : Row} (h : r ∈ data) :
    r.id.leB (maxId data) = true := by
  induction data with
  | nil => cases h
  | cons x xs ih =>
    rcases List.mem_cons.mp h with rfl | hmem
    · exact leB_max2_left _ _
    · exact leB_trans (ih hmem) (leB_max2_right x.id (maxId xs))

theorem maxId_finite {data : List Row} (hne : data ≠ []) (hfin : idsFinite data) :
    ∃ m : ℤ, maxId data = .int m := by
  induction data with
  | nil => cases hne rfl
  | cons x xs _ =>
    have hx : x.id ≠ JsNum.negInf := hfin x (List.mem_cons_self x xs)
    show ∃ m, JsNum.max2 x.id (maxId xs) = .int m
    cases hid : x.id with
    | negInf => exact absurd hid hx
    | int n =>
      cases hmx : maxId xs with
      | negInf => exact ⟨n, rfl⟩
      | int k => exact ⟨max n k, rfl⟩

theorem nextId_fresh {data : List Row} (hne : data ≠ []) (hfin : idsFinite data) :
    ∀ r ∈ data, r.id ≠ nextId data := by
  obtain ⟨m, hm⟩ := maxId_finite hne hfin
  intro r hr heq
  have hle := leB_maxId_of_mem hr
  rw [hm, heq] at hle
  simp only [nextId, hm, JsNum.addNat, JsNum.leB, decide_eq_true_eq] at hle
  omega

theorem nextId_finite {data : List Row} (hne : data ≠ []) (hfin : idsFinite data) :
    nextId data ≠ JsNum.negInf := by
  obtain ⟨m, hm⟩ := maxId_finite hne hfin
  simp [nextId, hm, JsNum.addNat]

theorem nextId_not_mem_ids {data : List Row} (hne : data ≠ []) (hfin : idsFinite data) :
    nextId data ∉ idsOf data := by
  intro hmem
  obtain ⟨r, hr, hid⟩ := List.mem_map.mp hmem
  exact nextId_fresh hne hfin r hr hid

/-- Appending a freshly allocated row preserves the invariant. -/
theorem nice_append_next {data : List Row} (hne : data ≠ []) (hnice : NiceStore data)
    (fs : List (String × String)) :
    NiceStore (data ++ [{ id := nextId data, fields := fs }]) := by
  obtain ⟨hfin, hnd⟩ := hnice
  constructor
  · intro r hr
    rcases List.mem_append.mp hr with h | h
    · exact hfin r h
    · simp only [List.mem_singleton] at h
      subst h
      exact nextId_finite hne hfin
  · simp only [idsOf, List.map_append, List.map_cons, List.map_nil]
    rw [List.nodup_append]
    refine ⟨hnd, List.nodup_singleton _, ?_⟩
    intro x hx
    simp only [List.mem_singleton]
    intro he
    exact nextId_not_mem_ids hne hfin (he ▸ hx)

/-! ### Invariant preservation for row operation sequences -/

theorem nice_addRow {data : List Row} (hne : data ≠ []) (hnice : NiceStore data)
    (t : String) (cc : List String) : NiceStore (addRow t cc data) :=
  nice_append_next hne hnice _

theorem spliceIn_perm (p : ℕ) (x : Row) (l : List Row) :
    List.Perm (spliceIn p x l) (l ++ [x]) := by
  have h1 : List.Perm (l.take p ++ x :: l.drop p) (x :: (l.take p ++ l.drop p)) :=
    List.perm_middle
  rw [List.take_append_drop] at h1
  exact h1.trans (List.perm_append_singleton x l).symm

theorem nice_addRowAt {data : List Row} (hne : data ≠ []) (hnice : NiceStore data)
    (t : String) (cc : List String) (p : Option ℕ) : NiceStore (addRowAt t cc p data) := by
  have happ := nice_append_next hne hnice (defaultRowFields t cc)
  cases p with
  | none => exact happ
  | some p =>
    simp only [addRowAt]
    by_cases hp : p < data.length
    · rw [if_pos hp]
      have hperm := spliceIn_perm p
        { id := nextId data, fields := defaultRowFields t cc } data
      obtain ⟨hfin, hnd⟩ := happ
      constructor
      · intro r hr
        exact hfin r (hperm.mem_iff.mp hr)
      · exact ((hperm.map Row.id).nodup_iff).mpr hnd
    · rw [if_neg hp]
      exact happ

theorem nice_duplicateRow {data : List Row} (hnice : NiceStore data) (rid : JsNum) :
    NiceStore (duplicateRow rid data) := by
  unfold duplicateRow
  cases hf : data.find? (fun r => r.id = rid) with
  | none => exact hnice
  | some r =>
    have hmem : r ∈ data := List.mem_of_find?_eq_some hf
    have hne : data ≠ [] := List.ne_nil_of_mem hmem
    exact nice_append_next hne hnice r.fields

theorem nice_filter {data : List Row} (hnice : NiceStore data) (p : Row → Bool) :
    NiceStore (data.filter p) := by
  obtain ⟨hfin, hnd⟩ := hnice
  constructor
  · intro r hr
    exact hfin r (List.mem_of_mem_filter hr)
  · exact List.Nodup.sublist ((List.filter_sublist data).map Row.id) hnd

theorem batchDupNewRows_mem {m : ℤ} :
    ∀ (l : List Row) (i : ℕ) (x : JsNum), x ∈ idsOf (batchDupNewRows (.int m) i l) →
      ∃ k : ℕ, i + 1 ≤ k ∧ x = .int (m + k) := by
  intro l
  induction l with
  | nil => intro i x hx; cases hx
  | cons r rest ih =>
    intro i x hx
    rcases List.mem_cons.mp hx with rfl | hmem
    · exact ⟨i + 1, le_refl _, rfl⟩
    · obtain ⟨k, hk, hkx⟩ := ih (i + 1) x hmem
      exact ⟨k, by omega, hkx⟩

theorem batchDupNewRows_nodup {m : ℤ} :
    ∀ (l : List Row) (i : ℕ), (idsOf (batchDupNewRows (.int m) i l)).Nodup := by
  intro l
  induction l with
  | nil => intro i; exact List.nodup_nil
  | cons r rest ih =>
    intro i
    simp only [batchDupNewRows, idsOf, List.map_cons, List.nodup_cons]
    refine ⟨?_, ih (i + 1)⟩
    intro hmem
    obtain ⟨k, hk, hkx⟩ := batchDupNewRows_mem _ _ _ hmem
    simp only [JsNum.addNat, JsNum.int.injEq] at hkx
    omega

theorem nice_batchDuplicateRows {data : List Row} (hnice : NiceStore data)
    (rids : List JsNum) : NiceStore (batchDuplicateRows rids data) := by
  obtain ⟨hfin, hnd⟩ := hnice
  unfold batchDuplicateRows
  cases hsel : data.filter (fun r => rids.contains r.id) with
  | nil => simpa [batchDupNewRows] using And.intro hfin hnd
  | cons r₀ rest =>
    have hmem₀ : r₀ ∈ data := by
      have : r₀ ∈ data.filter (fun r => rids.contains r.id) := by
        rw [hsel]; exact List.mem_cons_self _ _
      exact List.mem_of_mem_filter this
    have hne : data ≠ [] := List.ne_nil_of_mem hmem₀
    obtain ⟨m, hm⟩ := maxId_finite hne hfin
    rw [hm]
    constructor
    · intro r hr
      rcases List.mem_append.mp hr with h | h
      · exact hfin r h
      · obtain ⟨k, _, hkx⟩ := batchDupNewRows_mem _ _ _ (List.mem_map_of_mem Row.id h)
        rw [show r.id = JsNum.int (m + k) from hkx]
        simp
    · simp only [idsOf, List.map_append]
      rw [List.nodup_append]
      refine ⟨hnd, batchDupNewRows_nodup _ _, ?_⟩
      intro x hx
      intro hx'
      obtain ⟨k, hk, hkx⟩ := batchDupNewRows_mem _ _ _ hx'
      obtain ⟨r, hr, hid⟩ := List.mem_map.mp hx
      have hle := leB_maxId_of_mem hr
      rw [hm, hid, hkx] at hle
      simp only [JsNum.leB, decide_eq_true_eq] at hle
      omega

theorem nice_applyOp {data : List Row} (op : RowOp) (hnice : NiceStore data)
    (hok : op.isInsertion = true → data ≠ []) : NiceStore (applyOp op data) := by
  cases op with
  | add t cc => exact nice_addRow (hok rfl) hnice t cc
  | addAt t cc p => exact nice_addRowAt (hok rfl) hnice t cc p
  | dup rid => exact nice_duplicateRow hnice rid
  | batchDup rids => exact nice_batchDuplicateRows hnice rids
  | del rid => exact nice_filter hnice _
  | batchDel rids => exact nice_filter hnice _

theorem nice_applyOps : ∀ (ops : List RowOp) (data : List Row), NiceStore data →
    insertionsOk ops data = true → NiceStore (applyOps ops data) := by
  intro ops
  induction ops with
  | nil => intro data h _; exact h
  | cons op rest ih =>
    intro data hnice hok
    simp only [insertionsOk, Bool.and_eq_true, Bool.or_eq_true, Bool.not_eq_true'] at hok
    have hne : op.isInsertion = true → data ≠ [] := by
      intro hins
      rcases hok.1 with h | h
      · rw [hins] at h; cases h
      · exact fun he => by rw [he] at h; cases h
    exact ih (applyOp op data) (nice_applyOp op hnice hne) hok.2

end Spreadsheet

namespace Spreadsheet

/-! ### Id bookkeeping of the individual operations -/

theorem idsOf_addRow (t : String) (cc : List String) (data : List Row) :
    idsOf (addRow t cc data) = idsOf data ++ [nextId data] := by
  simp [addRow, idsOf]

theorem idsOf_duplicateRow_found {data : List Row} {rid : JsNum} {r : Row}
    (hf : data.find? (fun x => x.id = rid) = some r) :
    idsOf (duplicateRow rid data) = idsOf data ++ [nextId data] := by
  simp [duplicateRow, hf, idsOf]

theorem batchDupNewRows_ids (m : JsNum) :
    ∀ (l : List Row) (i : ℕ),
      idsOf (batchDupNewRows m i l) =
        (List.range l.length).map (fun j => m.addNat (i + j + 1)) := by
  intro l
  induction l with
  | nil => intro i; rfl
  | cons r rest ih =>
    intro i
    have ih' := ih (i + 1)
    simp only [idsOf] at ih'
    simp only [batchDupNewRows, idsOf, List.map_cons, List.length_cons,
      List.range_succ_eq_map, List.map_map, ih']
    refine congrArg₂ _ (congrArg m.addNat (by omega)) ?_
    apply List.map_congr_left
    intro j _
    show m.addNat (i + 1 + j + 1) = m.addNat (i + (j + 1) + 1)
    exact congrArg m.addNat (by omega)

theorem idsOf_batchDuplicateRows (rids : List JsNum) (data : List Row) :
    idsOf (batchDuplicateRows rids data) =
      idsOf data ++ (List.range (data.filter (fun r => rids.contains r.id)).length).map
        (fun j => (maxId data).addNat (j + 1)) := by
  simp only [batchDuplicateRows, idsOf, List.map_append]
  rw [show List.map Row.id (batchDupNewRows (maxId data) 0
        (data.filter (fun r => rids.contains r.id))) =
      idsOf (batchDupNewRows (maxId data) 0 (data.filter (fun r => rids.contains r.id))) from rfl,
    batchDupNewRows_ids]
  refine congrArg _ (List.map_congr_left ?_)
  intro j _
  exact congrArg (maxId data).addNat (by omega)

theorem idsOf_deleteRow_sublist (rid : JsNum) (data : List Row) :
    List.Sublist (idsOf (deleteRow rid data)) (idsOf data) :=
  (List.filter_sublist data).map Row.id

/-! ### Claim C1 -/

/-- C1 (amended): starting from a store whose row ids are finite and pairwise
distinct, any finite sequence of row operations in which no `addRow`/`addRowAt`
is applied to an empty store keeps the ids pairwise distinct; insertion and
duplication of a found row assign id `max(existing ids) + 1`, batch duplication
assigns ids sequentially above the current maximum, and deletion never
reassigns ids (the surviving id sequence is a subsequence of the old one).
The unamended claim fails on an empty store: see the counterexample. -/
theorem claimC1_row_id_uniqueness_amended :
    (∀ (data : List Row) (ops : List RowOp), NiceStore data →
       insertionsOk ops data = true → (idsOf (applyOps ops data)).Nodup)
    ∧ (∀ (data : List Row), nextId data = (maxId data).addNat 1)
    ∧ (∀ (t : String) (cc : List String) (data : List Row),
        idsOf (addRow t cc data) = idsOf data ++ [nextId data])
    ∧ (∀ (data : List Row) (rid : JsNum) (r : Row),
        data.find? (fun x => x.id = rid) = some r →
        idsOf (duplicateRow rid data) = idsOf data ++ [nextId data])
    ∧ (∀ (rids : List JsNum) (data : List Row),
        idsOf (batchDuplicateRows rids data) =
          idsOf data ++ (List.range (data.filter (fun r => rids.contains r.id)).length).map
            (fun j => (maxId data).addNat (j + 1)))
    ∧ (∀ (rid : JsNum) (data : List Row),
        List.Sublist (idsOf (deleteRow rid data)) (idsOf data)) := by
  refine ⟨?_, ?_, ?_, ?_, ?_, ?_⟩
  · intro data ops hnice hok
    exact (nice_applyOps ops data hnice hok).2
  · intro data; rfl
  · exact idsOf_addRow
  · intro data rid r hf; exact idsOf_duplicateRow_found hf
  · exact idsOf_batchDuplicateRows
  · exact idsOf_deleteRow_sublist

/-- C1 counterexample: the claim as stated fails.  Deleting the only row and
then inserting twice gives both new rows the id `-Infinity`
(`Math.max()` of an empty spread), so the resulting ids are not pairwise
distinct. -/
theorem claimC1_counterexample :
    ¬ (idsOf (applyOps [RowOp.del (.int 5), RowOp.add "01-01-2025" [],
        RowOp.add "01-01-2025" []] [{ id := .int 5, fields := [] }])).Nodup := by
  decide

/-- C1 witness: the amended theorem applied to a concrete store and a concrete
operation sequence (duplicate, positional insert, delete, batch duplicate). -/
theorem claimC1_witness :
    (idsOf (applyOps [RowOp.dup (.int 2), RowOp.addAt "01-01-2025" [] (some 1),
        RowOp.del (.int 1), RowOp.batchDup [.int 2, .int 3]] exStore)).Nodup := by
  refine claimC1_row_id_uniqueness_amended.1 exStore _ ⟨?_, ?_⟩ ?_
  · unfold idsFinite; decide
  · decide
  · decide

end Spreadsheet

namespace Spreadsheet

/-! ### Claim C2 -/

theorem mem_filterStep_of_mem_processedData {data : List Row} {spec : ViewSpec} {r : Row}
    (hr : r ∈ processedData spec data) : r ∈ filterStep spec data := by
  cases hsf : spec.sortField with
  | none => simpa [processedData, hsf] using hr
  | some sf =>
    cases hso : spec.sortOrder with
    | none => simpa [processedData, hsf, hso] using hr
    | some so =>
      simp only [processedData, hsf, hso] at hr
      exact (mem_sortJs _ _ _).mp hr

/-- C2: with a filter field set and a non-empty filter value, every row of the
derived view satisfies the filter predicate (case-insensitive equality on the
date fields `submitted`/`dueDate`, case-insensitive containment elsewhere);
with no filter the filter stage is the identity. -/
theorem claimC2_filter_soundness :
    (∀ (data : List Row) (spec : ViewSpec) (r : Row) (f : String),
       spec.filterField = some f → spec.filterValue ≠ "" →
       r ∈ processedData spec data → matchesFilter f spec.filterValue r = true)
    ∧ (∀ (data : List Row) (spec : ViewSpec),
       spec.filterField = none ∨ spec.filterValue = "" → filterStep spec data = data) := by
  constructor
  · intro data spec r f hf hv hr
    have hmem := mem_filterStep_of_mem_processedData hr
    simp only [filterStep, hf] at hmem
    rw [if_pos hv] at hmem
    exact List.of_mem_filter hmem
  · intro data spec h
    cases hf : spec.filterField with
    | none => simp [filterStep, hf]
    | some f =>
      rcases h with h | h
      · rw [hf] at h; exact Option.noConfusion h
      · simp [filterStep, hf, h]

/-- C2 witness: the theorem applied to a concrete store; the row retained by
the `status = "complete"` filter satisfies the predicate, and the featureless
spec leaves the store unchanged. -/
theorem claimC2_witness :
    matchesFilter "status" "complete" exRow2 = true ∧ filterStep plainSpec exStore = exStore :=
  ⟨claimC2_filter_soundness.1 exStore statusFilterSpec exRow2 "status" rfl (by decide) (by decide),
   claimC2_filter_soundness.2 exStore plainSpec (Or.inl rfl)⟩

/-! ### Claim C4 -/

/-- C4: the sort is stable — two rows of the filtered input whose keys compare
equal under the selected comparator keep their relative order in the sorted
view; and without both a sort field and a sort order the derived view is
exactly the filter stage's output. -/
theorem claimC4_sort_stability :
    (∀ (data : List Row) (spec : ViewSpec) (f : String) (ord : SortOrder) (p q : Row),
       spec.sortField = some f → spec.sortOrder = some ord →
       List.Sublist [p, q] (filterStep spec data) → rowCmp f ord p q = 0 →
       List.Sublist [p, q] (processedData spec data))
    ∧ (∀ (data : List Row) (spec : ViewSpec),
       spec.sortField = none ∨ spec.sortOrder = none →
       processedData spec data = filterStep spec data) := by
  constructor
  · intro data spec f ord p q hsf hso hsub heq
    simp only [processedData, hsf, hso]
    exact sortJs_stable_pair _ _ _ _ hsub heq
  · intro data spec h
    rcases h with h | h
    · simp [processedData, h]
    · cases hsf : spec.sortField with
      | none => simp [processedData, hsf]
      | some f => simp [processedData, hsf, h]

/-- C4 witness: rows 1 and 3 share the status `"in-progress"`; sorting the
concrete store by status keeps row 1 before row 3. -/
theorem claimC4_witness :
    List.Sublist [exRow1, exRow3] (processedData statusSortSpec exStore) :=
  claimC4_sort_stability.1 exStore statusSortSpec "status" .asc exRow1 exRow3
    rfl rfl (by decide) (by decide)

end Spreadsheet

namespace Spreadsheet

/-! ### Exact-decimal comparison is comparison of rational values -/

theorem pow10_pos (n : ℕ) : 0 < pow10 n := by
  induction n with
  | zero => simp [pow10]
  | succ n ih => simp only [pow10]; omega

theorem pow10_cast_rat (n : ℕ) : ((pow10 n : ℤ) : ℚ) = (10 : ℚ) ^ n := by
  induction n with
  | zero => simp [pow10]
  | succ n ih => push_cast [pow10, pow_succ, ih]; ring

theorem scaled_casts (a b : DecQ) :
    ∃ c : ℚ, 0 < c ∧ ((DecQ.scaled a b).1 : ℚ) = a.toRat * c
      ∧ ((DecQ.scaled a b).2 : ℚ) = b.toRat * c := by
  have hne : (10 : ℚ) ≠ 0 := by norm_num
  unfold DecQ.scaled DecQ.toRat
  by_cases hd : 0 ≤ a.exp - b.exp
  · refine ⟨(10 : ℚ) ^ (-b.exp), zpow_pos (by norm_num) _, ?_, ?_⟩
    · rw [if_pos hd]
      push_cast
      rw [pow10_cast_rat, ← zpow_natCast (10 : ℚ), Int.toNat_of_nonneg hd,
        mul_assoc, ← zpow_add₀ hne, sub_eq_add_neg]
    · rw [if_pos hd, mul_assoc, ← zpow_add₀ hne]
      norm_num
  · refine ⟨(10 : ℚ) ^ (-a.exp), zpow_pos (by norm_num) _, ?_, ?_⟩
    · rw [if_neg hd, mul_assoc, ← zpow_add₀ hne]
      norm_num
    · rw [if_neg hd]
      push_cast
      rw [pow10_cast_rat, ← zpow_natCast (10 : ℚ),
        Int.toNat_of_nonneg (by omega : (0:ℤ) ≤ -(a.exp - b.exp)),
        mul_assoc, ← zpow_add₀ hne, neg_sub, sub_eq_add_neg]

theorem decqCmp_eq_ratCmp (a b : DecQ) : decqCmp a b = ratCmp a.toRat b.toRat := by
  obtain ⟨c, hc, h1, h2⟩ := scaled_casts a b
  have hlt : (DecQ.scaled a b).1 < (DecQ.scaled a b).2 ↔ a.toRat < b.toRat := by
    constructor
    · intro h
      have hq : ((DecQ.scaled a b).1 : ℚ) < ((DecQ.scaled a b).2 : ℚ) := by exact_mod_cast h
      rw [h1, h2] at hq
      exact (mul_lt_mul_right hc).mp hq
    · intro h
      have hq : a.toRat * c < b.toRat * c := (mul_lt_mul_right hc).mpr h
      rw [← h1, ← h2] at hq
      exact_mod_cast hq
  have hgt : (DecQ.scaled a b).2 < (DecQ.scaled a b).1 ↔ b.toRat < a.toRat := by
    constructor
    · intro h
      have hq : ((DecQ.scaled a b).2 : ℚ) < ((DecQ.scaled a b).1 : ℚ) := by exact_mod_cast h
      rw [h1, h2] at hq
      exact (mul_lt_mul_right hc).mp hq
    · intro h
      have hq : b.toRat * c < a.toRat * c := (mul_lt_mul_right hc).mpr h
      rw [← h1, ← h2] at hq
      exact_mod_cast hq
  unfold decqCmp intCmp ratCmp
  rw [if_congr hlt rfl rfl, if_congr hgt rfl rfl]

/-! ### Claim C5 -/

/-- C5: sorting by `estValue` strips commas, parses the remainder, degrades an
unparsable value to the sentinel 0, and compares the resulting numbers; on the
spec's Example 1 rows the ascending sort yields ids `[2, 1]`. -/
theorem claimC5_estValue_numeric :
    ((processedData estAscSpec [estRow1, estRow2]).map Row.id = [.int 2, .int 1])
    ∧ (∀ s : String, (stripCommas s).toList = s.toList.filter (fun c => c ≠ ','))
    ∧ (∀ s : String, jsParseFloat (stripCommas s) = none → (estKey s).toRat = 0)
    ∧ (∀ a b : Row, cmpRaw "estValue" a b =
        ratCmp (estKey (getF a "estValue")).toRat (estKey (getF b "estValue")).toRat) := by
  refine ⟨by decide, fun s => rfl, ?_, ?_⟩
  · intro s h
    unfold estKey
    rw [h]
    simp [DecQ.toRat]
  · intro a b
    show cmpRaw "estValue" a b = _
    unfold cmpRaw
    rw [if_neg (by decide), if_pos rfl]
    exact decqCmp_eq_ratCmp _ _

/-- C5 witness: the theorem applied at the concrete unparsable value `"abc"`
(the sentinel 0) and at the Example 1 cells. -/
theorem claimC5_witness :
    (estKey "abc").toRat = 0
    ∧ cmpRaw "estValue" estRow1 estRow2 =
        ratCmp (estKey "1,200").toRat (estKey "300").toRat :=
  ⟨claimC5_estValue_numeric.2.2.1 "abc" (by decide),
   claimC5_estValue_numeric.2.2.2 estRow1 estRow2⟩

end Spreadsheet

namespace Spreadsheet

/-! ### Substring characterisation of `includes` -/

theorem startsWithL_iff : ∀ (n h : List Char), startsWithL n h = true ↔ ∃ t, h = n ++ t := by
  intro n
  induction n with
  | nil =>
    intro h
    cases h with
    | nil => simp [startsWithL]
    | cons b bs => simp [startsWithL]
  | cons a as ih =>
    intro h
    cases h with
    | nil => simp [startsWithL]
    | cons b bs =>
      simp only [startsWithL, Bool.and_eq_true, decide_eq_true_eq, ih bs, List.cons_append]
      constructor
      · rintro ⟨rfl, t, rfl⟩
        exact ⟨t, rfl⟩
      · rintro ⟨t, ht⟩
        injection ht with h1 h2
        exact ⟨h1.symm, t, h2⟩

theorem jsIncludes_iff : ∀ (n h : List Char),
    jsIncludes n h = true ↔ ∃ p t, h = p ++ n ++ t := by
  intro n h
  induction h with
  | nil =>
    simp only [jsIncludes, startsWithL_iff]
    constructor
    · rintro ⟨t, ht⟩
      exact ⟨[], t, by simpa using ht⟩
    · rintro ⟨p, t, ht⟩
      rcases List.append_eq_nil.mp (List.append_eq_nil.mp ht.symm).1 with ⟨-, h2⟩
      exact ⟨t, by simp_all⟩
  | cons b bs ih =>
    simp only [jsIncludes, Bool.or_eq_true, startsWithL_iff, ih]
    constructor
    · rintro (⟨t, ht⟩ | ⟨p, t, ht⟩)
      · exact ⟨[], t, by simpa using ht⟩
      · exact ⟨b :: p, t, by simp [ht]⟩
    · rintro ⟨p, t, ht⟩
      cases p with
      | nil => exact Or.inl ⟨t, by simpa using ht⟩
      | cons x xs =>
        injection ht with h1 h2
        exact Or.inr ⟨xs, t, h2⟩

/-! ### The double count of `searchResultsCount` -/

theorem foldl_countP (P : β → Bool) :
    ∀ (l : List β) (c : ℕ),
      l.foldl (fun c f => if P f then c + 1 else c) c = c + l.countP P := by
  intro l
  induction l with
  | nil => intro c; simp
  | cons x xs ih =>
    intro c
    by_cases h : P x = true
    · simp [List.countP_cons, h, ih]
      omega
    · have h' : P x = false := by revert h; cases P x <;> simp
      simp [List.countP_cons, h', ih]

theorem doubleFold_countP (vf : List String) (M : Row → String → Bool) :
    ∀ (pd : List Row) (c : ℕ),
      pd.foldl (fun c r => vf.foldl (fun c f => if M r f then c + 1 else c) c) c
        = c + (pd.flatMap (fun r => vf.map (fun f => (r, f)))).countP (fun rf => M rf.1 rf.2) := by
  intro pd
  induction pd with
  | nil => intro c; simp
  | cons r rest ih =>
    intro c
    simp only [List.foldl_cons, List.flatMap_cons, List.countP_append]
    rw [foldl_countP, ih, List.countP_map]
    have hcomp : List.countP ((fun rf => M rf.1 rf.2) ∘ fun f => (r, f)) vf
        = List.countP (fun f => M r f) vf := rfl
    rw [hcomp, Nat.add_assoc]

/-! ### Claim C7 -/

/-- C7: an empty or whitespace-only term matches nothing and counts 0; a
non-degenerate term matches a cell exactly when the lower-cased stringified
value contains the lower-cased term as a substring; and the reported count is
the number of matching (row, visible-field) pairs over the processed view, not
the number of matching rows. -/
theorem claimC7_search_matching :
    (∀ (pd : List Row) (vf : List String) (term : String), jsTrimEmpty term = true →
       searchResultsCount pd vf term = 0
       ∧ ∀ (r : Row) (f : String), cellMatchesSearch term r f = false)
    ∧ (∀ (term : String) (r : Row) (f : String), jsTrimEmpty term = false →
       (cellMatchesSearch term r f = true ↔
         ∃ p t, lower (getF r f) = p ++ lower term ++ t))
    ∧ (∀ (pd : List Row) (vf : List String) (term : String),
       searchResultsCount pd vf term =
         (pd.flatMap (fun r => vf.map (fun f => (r, f)))).countP
           (fun rf => cellMatchesSearch term rf.1 rf.2))
    ∧ cellMatchesSearch "pat" exRow1 "submitter" = true := by
  refine ⟨?_, ?_, ?_, by decide⟩
  · intro pd vf term h
    exact ⟨by simp [searchResultsCount, h], fun r f => by simp [cellMatchesSearch, h]⟩
  · intro term r f h
    rw [cellMatchesSearch, if_neg (by simp [h])]
    exact jsIncludes_iff (lower term) (lower (getF r f))
  · intro pd vf term
    by_cases h : jsTrimEmpty term = true
    · rw [searchResultsCount, if_pos h]
      have hall : ∀ rf ∈ pd.flatMap (fun r => vf.map (fun f => (r, f))),
          ¬ (fun rf : Row × String => cellMatchesSearch term rf.1 rf.2) rf = true := by
        intro rf _
        simp [cellMatchesSearch, h]
      rw [List.countP_eq_zero.mpr hall]
    · rw [searchResultsCount, if_neg h, doubleFold_countP, Nat.zero_add]

/-- C7 witness: the theorem applied to a whitespace-only term on a concrete
view, and to the spec's Example 4 (`"pat"` inside `"Aisha Patel"`). -/
theorem claimC7_witness :
    searchResultsCount [exRow1] ["status"] "  " = 0
    ∧ (cellMatchesSearch "pat" exRow1 "submitter" = true ↔
        ∃ p t, lower (getF exRow1 "submitter") = p ++ lower "pat" ++ t) :=
  ⟨(claimC7_search_matching.1 [exRow1] ["status"] "  " (by decide)).1,
   claimC7_search_matching.2.1 "pat" exRow1 "submitter" (by decide)⟩

end Spreadsheet

namespace Spreadsheet

/-! ### The processed view as a rearranged subset of the store -/

theorem filterStep_sublist (spec : ViewSpec) (data : List Row) :
    List.Sublist (filterStep spec data) data := by
  cases hf : spec.filterField with
  | none =>
    have he : filterStep spec data = data := by simp only [filterStep, hf]
    rw [he]
  | some f =>
    simp only [filterStep, hf]
    by_cases h : spec.filterValue ≠ ""
    · rw [if_pos h]; exact List.filter_sublist data
    · rw [if_neg h]

theorem processedData_perm_filterStep (spec : ViewSpec) (data : List Row) :
    List.Perm (processedData spec data) (filterStep spec data) := by
  unfold processedData
  cases spec.sortField with
  | none => exact List.Perm.refl _
  | some f =>
    cases spec.sortOrder with
    | none => exact List.Perm.refl _
    | some ord => exact sortJs_perm _ _

theorem nodup_ids_processedData {spec : ViewSpec} {data : List Row}
    (h : (idsOf data).Nodup) : (idsOf (processedData spec data)).Nodup := by
  have hsub : List.Sublist (idsOf (filterStep spec data)) (idsOf data) :=
    (filterStep_sublist spec data).map Row.id
  have hnd : (idsOf (filterStep spec data)).Nodup := List.Nodup.sublist hsub h
  exact (((processedData_perm_filterStep spec data).map Row.id).nodup_iff).mpr hnd

theorem getCellValue_of_mem {spec : ViewSpec} {data : List Row} {r : Row}
    (cc : List String) (c : ℕ) (hnd : (idsOf data).Nodup)
    (hr : r ∈ processedData spec data) :
    getCellValue spec cc data r.id c
      = getF r (fieldAt (visibleFields spec.hiddenFields cc) c) := by
  unfold getCellValue
  rw [find?_id_of_mem_nodup _ r hr (nodup_ids_processedData hnd)]

theorem rowValueIn_setCellValue (vf : List String) (rid : JsNum) (c : ℕ) (v : String)
    (data : List Row) :
    rowValueIn (setCellValue vf rid c v data) rid (fieldAt vf c)
      = (rowValueIn data rid (fieldAt vf c)).map (fun _ => v) := by
  unfold setCellValue rowValueIn
  rw [find?_map_id_preserving _ (fun r => by by_cases h : r.id = rid <;> simp [h, setF_id])]
  cases hf : data.find? (fun r => r.id = rid) with
  | none => rfl
  | some r₀ =>
    have hp := List.find?_some hf
    simp only [decide_eq_true_eq] at hp
    simp [hp, getF_setF_self]

theorem rowValueIn_setCellValue_frame (vf : List String) (rid rid' : JsNum) (c : ℕ)
    (v k : String) (data : List Row) (h : rid' ≠ rid ∨ k ≠ fieldAt vf c) :
    rowValueIn (setCellValue vf rid c v data) rid' k = rowValueIn data rid' k := by
  unfold setCellValue rowValueIn
  rw [find?_map_id_preserving _ (fun r => by by_cases hh : r.id = rid <;> simp [hh, setF_id])]
  cases hf : data.find? (fun r => r.id = rid') with
  | none => rfl
  | some r₀ =>
    have hp := List.find?_some hf
    simp only [decide_eq_true_eq] at hp
    rcases h with h | h
    · have : ¬ r₀.id = rid := by rw [hp]; exact h
      simp [this]
    · by_cases hid : r₀.id = rid
      · simp [hid, getF_setF_ne _ _ _ _ h]
      · simp [hid]

theorem rowValueIn_clearColumn (vf : List String) (c : ℕ) (rid : JsNum) (data : List Row) :
    rowValueIn (clearColumn vf c data) rid (fieldAt vf c)
      = (rowValueIn data rid (fieldAt vf c)).map (fun _ => "") := by
  unfold clearColumn rowValueIn
  rw [find?_map_id_preserving _ (fun r => setF_id _ _ _)]
  cases hf : data.find? (fun r => r.id = rid) with
  | none => rfl
  | some r₀ => simp [getF_setF_self]

/-! ### Claim C6 -/

/-- C6: for a cell whose row is in the processed view, beginning an edit
initialises the draft to the cell's stored value; committing with the draft
unchanged leaves the stored field value unchanged, and committing with draft
`X` stores exactly `X`. -/
theorem claimC6_edit_roundtrip (spec : ViewSpec) (cc : List String) (st : EngineState)
    (r : Row) (c : ℕ) (hnd : (idsOf st.data).Nodup)
    (hr : r ∈ processedData spec st.data) :
    (handleCellDoubleClick spec cc st r.id c).editValue
        = getF r (fieldAt (visibleFields spec.hiddenFields cc) c)
    ∧ rowValueIn (saveEdit spec cc (handleCellDoubleClick spec cc st r.id c)).data r.id
          (fieldAt (visibleFields spec.hiddenFields cc) c)
        = rowValueIn st.data r.id (fieldAt (visibleFields spec.hiddenFields cc) c)
    ∧ (∀ X : String,
        rowValueIn (saveEdit spec cc
            { handleCellDoubleClick spec cc st r.id c with editValue := X }).data r.id
          (fieldAt (visibleFields spec.hiddenFields cc) c) = some X) := by
  have hmem : r ∈ st.data :=
    (filterStep_sublist spec st.data).subset (mem_filterStep_of_mem_processedData hr)
  have hbase : rowValueIn st.data r.id (fieldAt (visibleFields spec.hiddenFields cc) c)
      = some (getF r (fieldAt (visibleFields spec.hiddenFields cc) c)) := by
    unfold rowValueIn
    rw [find?_id_of_mem_nodup _ r hmem hnd]
    rfl
  have hdraft : (handleCellDoubleClick spec cc st r.id c).editValue
      = getF r (fieldAt (visibleFields spec.hiddenFields cc) c) :=
    getCellValue_of_mem cc c hnd hr
  refine ⟨hdraft, ?_, ?_⟩
  · show rowValueIn (setCellValue (visibleFields spec.hiddenFields cc) r.id c
        (handleCellDoubleClick spec cc st r.id c).editValue st.data) r.id _ = _
    rw [hdraft, rowValueIn_setCellValue, hbase]
    rfl
  · intro X
    show rowValueIn (setCellValue (visibleFields spec.hiddenFields cc) r.id c X st.data)
        r.id _ = some X
    rw [rowValueIn_setCellValue, hbase]
    rfl

/-- C6 witness: the round-trip exercised on the concrete store (row 1,
column 0). -/
theorem claimC6_witness :
    rowValueIn (saveEdit plainSpec []
        { handleCellDoubleClick plainSpec [] exSelState (.int 1) 0 with editValue := "X" }).data
      (.int 1) (fieldAt (visibleFields [] []) 0) = some "X" := by
  have h := claimC6_edit_roundtrip plainSpec [] exSelState exRow1 0 (by decide) (by decide)
  exact h.2.2 "X"

end Spreadsheet

namespace Spreadsheet

/-! ### Claim C9 -/

/-- C9: cell and column mutations resolve their numeric column index against
the visible-field sequence (registry order with the hidden fields removed),
not the full registry: the write lands on the i-th visible field, other
(row, field) slots are untouched, and hiding a preceding field makes the same
index target a different registry field (index 0 targets `jobRequest` with
nothing hidden but `submitted` once `jobRequest` is hidden). -/
theorem claimC9_visible_index_addressing :
    (∀ (hidden cc : List String) (i : ℕ),
       fieldAt (visibleFields hidden cc) i
         = ((baseFields ++ cc.map fieldKeyOf).filter
             (fun f => ¬ hidden.contains f)).getD i "undefined")
    ∧ (∀ (hidden cc : List String) (i : ℕ) (rid : JsNum) (v : String) (data : List Row),
       rowValueIn (setCellValue (visibleFields hidden cc) rid i v data) rid
           (fieldAt (visibleFields hidden cc) i)
         = (rowValueIn data rid (fieldAt (visibleFields hidden cc) i)).map (fun _ => v))
    ∧ (∀ (hidden cc : List String) (i : ℕ) (rid rid' : JsNum) (k v : String)
         (data : List Row),
       rid' ≠ rid ∨ k ≠ fieldAt (visibleFields hidden cc) i →
       rowValueIn (setCellValue (visibleFields hidden cc) rid i v data) rid' k
         = rowValueIn data rid' k)
    ∧ (∀ (vf : List String) (rid : JsNum) (i : ℕ) (data : List Row),
        clearCell vf rid i data = setCellValue vf rid i "" data)
    ∧ (∀ (hidden cc : List String) (i : ℕ) (rid : JsNum) (data : List Row),
       rowValueIn (clearColumn (visibleFields hidden cc) i data) rid
           (fieldAt (visibleFields hidden cc) i)
         = (rowValueIn data rid (fieldAt (visibleFields hidden cc) i)).map (fun _ => ""))
    ∧ fieldAt (visibleFields [] []) 0 = "jobRequest"
    ∧ fieldAt (visibleFields ["jobRequest"] []) 0 = "submitted"
    ∧ rowValueIn (clearCell (visibleFields ["jobRequest"] []) (.int 1) 0 exStore)
        (.int 1) "submitted" = some ""
    ∧ rowValueIn (clearCell (visibleFields ["jobRequest"] []) (.int 1) 0 exStore)
        (.int 1) "jobRequest" = some "Launch social media campaign" := by
  refine ⟨fun hidden cc i => rfl,
    fun hidden cc i rid v data => rowValueIn_setCellValue _ _ _ _ _, ?_,
    fun vf rid i data => rfl, fun hidden cc i rid data => rowValueIn_clearColumn _ _ _ _,
    by decide, by decide, by decide, by decide⟩
  intro hidden cc i rid rid' k v data h
  exact rowValueIn_setCellValue_frame _ _ _ _ _ _ _ h

/-- C9 witness: writes through hidden-field-relative indices on the concrete
store: the frame part of the theorem leaves another row's `jobRequest`
untouched. -/
theorem claimC9_witness :
    rowValueIn (setCellValue (visibleFields [] []) (.int 1) 0 "Z" exStore)
        (.int 2) "jobRequest" = rowValueIn exStore (.int 2) "jobRequest" :=
  claimC9_visible_index_addressing.2.2.1 [] [] 0 (.int 1) (.int 2) "jobRequest" "Z" exStore
    (Or.inl (by decide))

/-! ### Claim C10 -/

/-- C10: duplicating a present row appends the copy at the end of the row
order, leaving every pre-existing row (id, fields, position) unchanged;
duplicating an absent row id leaves the store entirely unchanged. -/
theorem claimC10_duplicate_frame :
    (∀ (data : List Row) (rid : JsNum) (r : Row),
       data.find? (fun x => x.id = rid) = some r →
       duplicateRow rid data = data ++ [{ r with id := nextId data }]
       ∧ (∀ i : ℕ, i < data.length → (duplicateRow rid data).get? i = data.get? i)
       ∧ (duplicateRow rid data).length = data.length + 1)
    ∧ (∀ (data : List Row) (rid : JsNum),
       data.find? (fun x => x.id = rid) = none → duplicateRow rid data = data) := by
  constructor
  · intro data rid r hf
    have he : duplicateRow rid data = data ++ [{ r with id := nextId data }] := by
      unfold duplicateRow
      rw [hf]
    refine ⟨he, ?_, ?_⟩
    · intro i hi
      rw [he]
      simp [List.getElem?_append_left hi]
    · rw [he]
      simp
  · intro data rid hf
    unfold duplicateRow
    rw [hf]

/-- C10 witness: duplicating the present row 2 of the concrete store appends
the copy at the end. -/
theorem claimC10_witness :
    duplicateRow (.int 2) exStore = exStore ++ [{ exRow2 with id := nextId exStore }]
    ∧ (duplicateRow (.int 2) exStore).length = exStore.length + 1 := by
  have h := claimC10_duplicate_frame.1 exStore (.int 2) exRow2 (by decide)
  exact ⟨h.1, h.2.2⟩

/-! ### Claim C8 -/

/-- C8 counterexample: `duplicateRow` never fails with `RowNotFound` — on the
absent id 99 it returns normally with the store unchanged, while the spec's
contract demands the error. -/
theorem claimC8_counterexample :
    duplicateRowExc (.int 99) exStore ≠ Except.error RowError.rowNotFound
    ∧ duplicateRowExc (.int 99) exStore = Except.ok exStore
    ∧ duplicateRowSpecModel (.int 99) exStore = Except.error RowError.rowNotFound := by
  have hd : duplicateRow (.int 99) exStore = exStore := by decide
  have hf : exStore.find? (fun r => r.id = JsNum.int 99) = none := by decide
  refine ⟨?_, ?_, ?_⟩
  · intro h
    unfold duplicateRowExc at h
    rw [hd] at h
    exact Except.noConfusion h
  · unfold duplicateRowExc
    rw [hd]
  · unfold duplicateRowSpecModel
    rw [hf]

/-- C8 (amended): duplicating an absent row id is a silent no-op (a normal
return with the store unchanged — there is no error channel); duplicating a
present id appends a new row that copies all field values of the original and
carries id `max(existing ids) + 1`. -/
theorem claimC8_duplicate_notfound_amended :
    (∀ (data : List Row) (rid : JsNum),
       data.find? (fun r => r.id = rid) = none →
       duplicateRowExc rid data = Except.ok data)
    ∧ (∀ (data : List Row) (rid : JsNum) (r : Row),
       data.find? (fun x => x.id = rid) = some r →
       ∃ nw : Row, duplicateRow rid data = data ++ [nw]
         ∧ nw.fields = r.fields ∧ nw.id = (maxId data).addNat 1) := by
  constructor
  · intro data rid hf
    unfold duplicateRowExc duplicateRow
    rw [hf]
  · intro data rid r hf
    refine ⟨{ r with id := nextId data }, ?_, rfl, rfl⟩
    unfold duplicateRow
    rw [hf]

/-- C8 witness: the amended theorem at the present id 1 of the concrete store:
the copy repeats row 1's fields under the id `max + 1`. -/
theorem claimC8_witness :
    ∃ nw : Row, duplicateRow (.int 1) exStore = exStore ++ [nw]
      ∧ nw.fields = exRow1.fields ∧ nw.id = (maxId exStore).addNat 1 :=
  claimC8_duplicate_notfound_amended.2 exStore (.int 1) exRow1 (by decide)

/-! ### Claim C3 -/

/-- C3 counterexample: deleting the selected row via `Shift+Delete` removes
the row but leaves `selectedCell` pointing at the removed id — the machine
does not return to Idle, and the selection references an id absent from the
store. -/
theorem claimC3_counterexample :
    (handleKeyDownDelete plainSpec [] true exSelState).selectedCell = some (.int 1, 0)
    ∧ (.int 1) ∉ idsOf (handleKeyDownDelete plainSpec [] true exSelState).data := by
  refine ⟨?_, ?_⟩ <;> decide

/-- C3 (amended): deleting the selected row (keyboard, toolbar, context menu,
batch) removes the row from the store but never resets the single selection —
`selectedCell` is left unchanged, possibly referencing the removed id; the
keyboard delete paths are suppressed entirely while an edit session is active,
so that path cannot orphan an edit; batch delete clears only the multi-select
set. -/
theorem claimC3_delete_selection_amended :
    (∀ (spec : ViewSpec) (cc : List String) (st : EngineState) (r : JsNum) (c : ℕ),
       st.editingCell = none → st.selectedCell = some (r, c) →
       (handleKeyDownDelete spec cc true st).data = deleteRow r st.data
       ∧ (handleKeyDownDelete spec cc true st).selectedCell = st.selectedCell
       ∧ (handleKeyDownDelete spec cc true st).editingCell = none)
    ∧ (∀ (spec : ViewSpec) (cc : List String) (shift : Bool) (st : EngineState),
       st.editingCell.isSome = true → handleKeyDownDelete spec cc shift st = st)
    ∧ (∀ st : EngineState, (toolbarDeleteRow st).selectedCell = st.selectedCell
        ∧ (toolbarDeleteRow st).editingCell = st.editingCell)
    ∧ (∀ st : EngineState, (batchDeleteAction st).selectedCells = []
        ∧ (batchDeleteAction st).selectedCell = st.selectedCell)
    ∧ (∀ (spec : ViewSpec) (st : EngineState) (i : ℕ),
        (contextDeleteRow spec st i).selectedCell = st.selectedCell
        ∧ (contextDeleteRow spec st i).editingCell = st.editingCell) := by
  refine ⟨?_, ?_, ?_, ?_, ?_⟩
  · intro spec cc st r c hedit hsel
    simp [handleKeyDownDelete, hedit, hsel]
  · intro spec cc shift st hedit
    simp [handleKeyDownDelete, hedit]
  · intro st
    unfold toolbarDeleteRow
    cases hsel : st.selectedCell with
    | none => exact ⟨hsel, rfl⟩
    | some rc =>
      obtain ⟨r0, c0⟩ := rc
      exact ⟨rfl, rfl⟩
  · intro st
    exact ⟨rfl, rfl⟩
  · intro spec st i
    unfold contextDeleteRow
    cases hg : (processedData spec st.data).get? i with
    | none => exact ⟨rfl, rfl⟩
    | some row =>
      by_cases ht : row.id.truthy = true
      · simp [ht]
      · simp [ht]

/-- C3 witness: the amended theorem at the concrete selected state: the
keyboard delete removes row 1 but keeps the selection on it. -/
theorem claimC3_witness :
    (handleKeyDownDelete plainSpec [] true exSelState).data
        = deleteRow (.int 1) exSelState.data
    ∧ (handleKeyDownDelete plainSpec [] true exSelState).selectedCell
        = exSelState.selectedCell
    ∧ (handleKeyDownDelete plainSpec [] true exSelState).editingCell = none :=
  claimC3_delete_selection_amended.1 plainSpec [] exSelState (.int 1) 0 rfl rfl

end Spreadsheet
